/-
Verification of the retrieval and evidence-assembly pipeline of a
research-paper RAG system: reading-order reconstruction
(src/document_processing/reading_order.py), semantic chunking
(src/document_processing/chunker.py), vector-search result formatting
(src/retrieval/vector_store.py), MMR diversity re-ranking
(src/retrieval/rag_retriever.py), answer assembly
(src/llm_orchestration/answer_engine.py) and the answer cache
(src/llm_orchestration/answer_cache.py).

The Python code is shallowly embedded: floats on geometric coordinates and
scores become `ℚ`, Python `int` becomes `ℤ`/`ℕ`, Python's stable `list.sort`
becomes `List.insertionSort` (which is stable with a `≤`-style relation),
Python dictionaries keyed by insertion order become association lists, and
the chunker's `while` loop (which can genuinely diverge) gets an explicit
fuel parameter, returning `none` when the fuel is exhausted.
-/
import Mathlib

namespace RPC

/-! ## Reading order detection (`reading_order.py`)

`Region` is the layout-detector record consumed by
`ReadingOrderDetector.determine_reading_order`; `OrderedRegion` is its
output record. -/

/-- A bounding box `[x1, y1, x2, y2]`, coordinates as rationals. -/
structure Bbox where
  x1 : ℚ
  y1 : ℚ
  x2 : ℚ
  y2 : ℚ
deriving DecidableEq

/-- A layout region as consumed by `determine_reading_order`. -/
structure Region where
  region_id : String
  region_type : String
  bbox : Bbox
  confidence : ℚ
  page_num : ℤ
deriving DecidableEq

/-- An `OrderedRegion`: a region annotated with its global reading order. -/
structure OrderedRegion where
  region_id : String
  region_type : String
  bbox : Bbox
  confidence : ℚ
  page_num : ℤ
  reading_order : ℕ
deriving DecidableEq

/-- The table `self.type_priority` with the `.get(region_type, 5)` default. -/
def typePriority (t : String) : ℕ :=
  if t = "title" then 0
  else if t = "text" then 1
  else if t = "list" then 2
  else if t = "table" then 3
  else if t = "figure" then 4
  else 5

/-- Horizontal center `(x1 + x2) / 2` of a region's bbox. -/
def xCenter (r : Region) : ℚ := (r.bbox.x1 + r.bbox.x2) / 2

/-- A detected column: running center plus member regions (in assignment
order), as built by `_detect_columns`. -/
structure Column where
  x_center : ℚ
  regions : List Region
deriving DecidableEq

/-- Sort key of `region_centers.sort(key=lambda x: x[0])`: compare the
x-center component only. -/
def centerLe (a b : ℚ × Region) : Prop := a.1 ≤ b.1

instance : DecidableRel centerLe := fun a b => by unfold centerLe; infer_instance

instance : IsTotal (ℚ × Region) centerLe := ⟨fun a b => le_total a.1 b.1⟩

instance : IsTrans (ℚ × Region) centerLe := ⟨fun _ _ _ => le_trans⟩

/-- Greedy clustering loop of `_detect_columns`: each `(x_center, region)`
pair joins the current column when `|x_center − column.x_center| <
threshold` (updating the running average), else closes the current column
and starts a new one. -/
def clusterCols (threshold : ℚ) : List (ℚ × Region) → Column → List Column → List Column
  | [], cur, acc => acc ++ [cur]
  | (x, r) :: rest, cur, acc =>
    if |x - cur.x_center| < threshold then
      let n : ℚ := cur.regions.length + 1
      clusterCols threshold rest ⟨(cur.x_center * (n - 1) + x) / n, cur.regions ++ [r]⟩ acc
    else
      clusterCols threshold rest ⟨x, [r]⟩ (acc ++ [cur])

/-- Method `_detect_columns(regions, column_threshold)`: pair each region with its
x-center, sort by x-center (stable), then greedily cluster. An empty region
list yields no columns. -/
def detectColumns (threshold : ℚ) (regions : List Region) : List Column :=
  match List.insertionSort centerLe (regions.map (fun r => (xCenter r, r))) with
  | [] => []
  | (x, r) :: rest => clusterCols threshold rest ⟨x, [r]⟩ []

/-- Within-column sort key of `_order_page_regions`: ascending
`(type_priority, y1)` lexicographically. -/
def keyLe (a b : Region) : Prop :=
  typePriority a.region_type < typePriority b.region_type ∨
    (typePriority a.region_type = typePriority b.region_type ∧ a.bbox.y1 ≤ b.bbox.y1)

instance : DecidableRel keyLe := fun a b => by unfold keyLe; infer_instance

instance : IsTotal Region keyLe := by
  refine ⟨fun a b => ?_⟩
  unfold keyLe
  rcases lt_trichotomy (typePriority a.region_type) (typePriority b.region_type) with h | h | h
  · exact Or.inl (Or.inl h)
  · rcases le_total a.bbox.y1 b.bbox.y1 with h2 | h2
    · exact Or.inl (Or.inr ⟨h, h2⟩)
    · exact Or.inr (Or.inr ⟨h.symm, h2⟩)
  · exact Or.inr (Or.inl h)

instance : IsTrans Region keyLe := by
  refine ⟨fun a b c hab hbc => ?_⟩
  unfold keyLe at *
  rcases hab with h1 | ⟨h1, h1'⟩ <;> rcases hbc with h2 | ⟨h2, h2'⟩
  · exact Or.inl (h1.trans h2)
  · exact Or.inl (lt_of_lt_of_eq h1 h2)
  · exact Or.inl (lt_of_eq_of_lt h1 h2)
  · exact Or.inr ⟨h1.trans h2, h1'.trans h2'⟩

/-- Strict version of the within-column key: `a` has strictly smaller
`(type_priority, y1)` than `b`. -/
def keyLt (a b : Region) : Prop :=
  typePriority a.region_type < typePriority b.region_type ∨
    (typePriority a.region_type = typePriority b.region_type ∧ a.bbox.y1 < b.bbox.y1)

instance : DecidableRel keyLt := fun a b => by unfold keyLt; infer_instance

/-- Column comparison of `sorted(columns, key=lambda col: col['x_center'])`. -/
def colLe (a b : Column) : Prop := a.x_center ≤ b.x_center

instance : DecidableRel colLe := fun a b => by unfold colLe; infer_instance

instance : IsTotal Column colLe := ⟨fun a b => le_total a.x_center b.x_center⟩

instance : IsTrans Column colLe := ⟨fun _ _ _ => le_trans⟩

/-- Method `_order_page_regions`: detect columns (threshold 50), sort the columns
left to right by their final center, sort each column's regions by
`(type_priority, y1)` (stable) and concatenate. -/
def orderPageRegions (regions : List Region) : List Region :=
  ((List.insertionSort colLe (detectColumns 50 regions)).map
    (fun col => List.insertionSort keyLe col.regions)).flatten

/-- The ascending list of distinct page numbers:
`sorted(regions_by_page.keys())`. -/
def pageKeys (regions : List Region) : List ℤ :=
  List.insertionSort (· ≤ ·) (regions.map (fun r => r.page_num)).dedup

/-- The page bucket `regions_by_page[p]`: the regions of page `p` in input order. -/
def pageRegions (regions : List Region) (p : ℤ) : List Region :=
  regions.filter (fun r => r.page_num = p)

/-- Build an `OrderedRegion` from a region and its global order counter. -/
def mkOrdered (r : Region) (i : ℕ) : OrderedRegion :=
  ⟨r.region_id, r.region_type, r.bbox, r.confidence, r.page_num, i⟩

/-- Drop the `reading_order` annotation again. -/
def toRegion (o : OrderedRegion) : Region :=
  ⟨o.region_id, o.region_type, o.bbox, o.confidence, o.page_num⟩

/-- The concatenation, over pages in ascending page order, of each page's
ordered regions: the sequence in which `determine_reading_order` assigns
the global counter. -/
def flatRegs (regions : List Region) : List Region :=
  (pageKeys regions).flatMap (fun p => orderPageRegions (pageRegions regions p))

/-- Method `determine_reading_order`: process pages in ascending page order, order
each page's regions, and assign the global counter `0, 1, 2, …` in output
order. -/
def determineReadingOrder (regions : List Region) : List OrderedRegion :=
  ((flatRegs regions).enum).map (fun pr => mkOrdered pr.2 pr.1)

/-! ## Semantic chunking (`chunker.py`)

`SemanticChunker._chunk_text` works on Python strings with slice indices
that may go negative; Python's index adjustment for slices and
`str.rfind(sub, start, end)` is embedded exactly (`clampIdx`). The `while`
loop takes a fuel argument and returns `none` when fuel runs out. -/

/-- Chunker configuration: `chunk_size` and `chunk_overlap`, in tokens. -/
structure ChunkCfg where
  size : ℕ
  overlap : ℕ
deriving DecidableEq

/-- Python's slice-endpoint adjustment for a string of length `len`: a
negative index counts from the end (clamped at 0), a nonnegative index is
clamped at `len`. -/
def clampIdx (len : ℕ) (i : ℤ) : ℕ :=
  if i < 0 then ((len : ℤ) + i).toNat else min i.toNat len

/-- Python slice `s[i:j]` (on the character list of a string). -/
def pySlice (s : List Char) (i j : ℤ) : List Char :=
  (s.take (clampIdx s.length j)).drop (clampIdx s.length i)

/-- Does `pat` occur in `s` starting at position `p`? -/
def matchesAt (s pat : List Char) (p : ℕ) : Bool :=
  decide ((s.drop p).take pat.length = pat)

/-- Python `s.rfind(pat, i, j)`: the largest position `p` with
`clampIdx i ≤ p`, `p + |pat| ≤ clampIdx j` and `pat` occurring at `p`;
`none` models the `-1` result. -/
def pyRfind (s pat : List Char) (i j : ℤ) : Option ℕ :=
  ((List.range (s.length + 1)).filter
    (fun p => decide (clampIdx s.length i ≤ p) &&
      decide (p + pat.length ≤ clampIdx s.length j) && matchesAt s pat p)).getLast?

/-- The natural break strings searched, in priority order:
`'\n\n'`, `'\n'`, `'. '`, `' '`. -/
def breakSeqs : List (List Char) := [['\n', '\n'], ['\n'], ['.', ' '], [' ']]

/-- The `for break_char in [...]` search of `_chunk_text`: the first break
string found by `rfind` in `[s, e)` determines the new window end
`break_pos + len(break_char)`. -/
def breakPoint (text : List Char) (s e : ℤ) : Option ℕ :=
  (breakSeqs.filterMap (fun bc => (pyRfind text bc s e).map (fun p => p + bc.length))).head?

/-- Python whitespace characters as removed by `str.strip()`. -/
def pyIsSpace (c : Char) : Bool :=
  c = ' ' || c = '\t' || c = '\n' || c = '\r' || c = '\x0B' || c = '\x0C'

/-- Python `s.strip()`. -/
def pyStrip (s : List Char) : List Char :=
  ((s.dropWhile pyIsSpace).reverse.dropWhile pyIsSpace).reverse

/-- The provenance metadata `_chunk_text` copies into every chunk. -/
structure RegionMeta where
  paper_name : String
  page_num : ℤ
  region_id : String
  region_type : String
  bbox : Bbox
  reading_order : ℕ
deriving DecidableEq

/-- A `Chunk` record as produced by `_chunk_text`. -/
structure Chunk where
  chunk_id : String
  text : List Char
  paper_name : String
  page_num : ℤ
  region_id : String
  region_type : String
  bbox : Bbox
  reading_order : ℕ
  chunk_index : ℕ
deriving DecidableEq

/-- Build the chunk with id `f"{paper_name}_{region_id}_chunk{chunk_index}"`. -/
def mkChunk (m : RegionMeta) (t : List Char) (idx : ℕ) : Chunk :=
  ⟨m.paper_name ++ "_" ++ m.region_id ++ "_chunk" ++ toString idx,
   t, m.paper_name, m.page_num, m.region_id, m.region_type, m.bbox,
   m.reading_order, idx⟩

/-- The window-end computation of one iteration of `_chunk_text`:
`end = start + chunk_size*4`, moved back to the natural break point when
one exists and the raw end falls short of the text end. -/
def windowEnd (cfg : ChunkCfg) (text : List Char) (start : ℤ) : ℤ :=
  if start + 4 * (cfg.size : ℤ) < (text.length : ℤ) then
    match breakPoint text start (start + 4 * (cfg.size : ℤ)) with
    | some b => (b : ℤ)
    | none => start + 4 * (cfg.size : ℤ)
  else start + 4 * (cfg.size : ℤ)

/-- The multi-chunk `while start < len(text)` loop of `_chunk_text`, with
fuel. State: window start (a Python int, possibly negative), next
`chunk_index`, accumulated chunks. The only loop exit in the source is
`start >= len(text)`. -/
def chunkLoop (cfg : ChunkCfg) (m : RegionMeta) (text : List Char) :
    ℕ → ℤ → ℕ → List Chunk → Option (List Chunk)
  | 0, _, _, _ => none
  | fuel + 1, start, idx, acc =>
    if start < (text.length : ℤ) then
      let e : ℤ := windowEnd cfg text start
      let ct := pyStrip (pySlice text start e)
      let acc' := if ct = [] then acc else acc ++ [mkChunk m ct idx]
      let idx' := if ct = [] then idx else idx + 1
      let start' : ℤ := if e < (text.length : ℤ) then e - 4 * cfg.overlap else e
      if (text.length : ℤ) ≤ start' then some acc'
      else chunkLoop cfg m text fuel start' idx' acc'
    else some acc

/-- Method `_chunk_text`: one verbatim chunk when `len(text)/4 ≤ chunk_size`, else
the overlapping-window loop. The source compares the exact quotient
`len(text)/4` against `chunk_size`; that comparison holds iff
`len(text) ≤ 4 * chunk_size`, which is the form used here. -/
def chunkText (cfg : ChunkCfg) (m : RegionMeta) (text : List Char) (fuel : ℕ) :
    Option (List Chunk) :=
  if text.length ≤ 4 * cfg.size then some [mkChunk m text 0]
  else chunkLoop cfg m text fuel 0 0 []

/-- A fixed metadata record for concrete evaluations. -/
def exMeta : RegionMeta := ⟨"P", 1, "r1", "text", ⟨0, 0, 10, 10⟩, 0⟩

/-! ## Vector-store search result formatting (`vector_store.py`)

`VectorStore.search` receives ids/documents/metadatas/distances from the
index (an external capability) and formats each hit with
`score = 1 - distance`. -/

/-- One raw hit as returned by the index: id, document text, the metadata
fields the retriever reads back, and the reported cosine distance. -/
structure RawHit where
  chunk_id : String
  text : String
  paper_name : String
  region_id : String
  distance : ℚ
deriving DecidableEq

/-- A formatted search result (the dict built in `VectorStore.search`). -/
structure SearchResult where
  chunk_id : String
  text : String
  paper_name : String
  region_id : String
  distance : ℚ
  score : ℚ
deriving DecidableEq

/-- Formatting of a single hit: `score = 1 - distance`. -/
def formatHit (h : RawHit) : SearchResult :=
  ⟨h.chunk_id, h.text, h.paper_name, h.region_id, h.distance, 1 - h.distance⟩

/-- The result-formatting loop of `VectorStore.search`. -/
def searchFormat (hits : List RawHit) : List SearchResult :=
  hits.map formatHit

/-! ## Retriever with MMR diversification (`rag_retriever.py`) -/

/-- Method `_calculate_similarity`: 0.9 for the same region, 0.6 for the same
paper, 0.3 otherwise. -/
def calcSimilarity (d1 d2 : SearchResult) : ℚ :=
  if d1.region_id = d2.region_id then 9 / 10
  else if d1.paper_name = d2.paper_name then 6 / 10
  else 3 / 10

/-- Python `max` over a list of rationals (only ever used on a nonempty
list in the source; the empty case is a default). -/
def pyMax : List ℚ → ℚ
  | [] => 0
  | x :: xs => xs.foldl max x

/-- The MMR score of a candidate against the already selected results:
`λ·relevance − (1−λ)·max_similarity`. -/
def mmrScore (lam : ℚ) (selected : List SearchResult) (c : SearchResult) : ℚ :=
  lam * c.score - (1 - lam) * pyMax (selected.map (fun s => calcSimilarity c s))

/-- Comparison used for `mmr_scores.sort(key=lambda x: x[0], reverse=True)`:
a stable descending sort on the score component. -/
def mmrLe (a b : ℚ × SearchResult) : Prop := b.1 ≤ a.1

instance : DecidableRel mmrLe := fun a b => by unfold mmrLe; infer_instance

instance : IsTotal (ℚ × SearchResult) mmrLe := ⟨fun a b => le_total b.1 a.1⟩

instance : IsTrans (ℚ × SearchResult) mmrLe := ⟨fun _ _ _ h1 h2 => le_trans h2 h1⟩

/-- Descending score order (how the vector store hands results to
`retrieve`: ChromaDB returns ascending distances, `search_by_paper` and
`search_by_region_type` re-sort by score descending). -/
def scoreGe (a b : SearchResult) : Prop := b.score ≤ a.score

instance : DecidableRel scoreGe := fun a b => by unfold scoreGe; infer_instance

instance : IsTotal SearchResult scoreGe := ⟨fun a b => le_total b.score a.score⟩

instance : IsTrans SearchResult scoreGe := ⟨fun _ _ _ h1 h2 => le_trans h2 h1⟩

/-- The `while len(selected) < top_k and remaining` loop of
`_diversify_results`. The fuel equals the length of `remaining` at the
call site, which the loop strictly decreases, so the fuel never runs out
before the loop condition fails. -/
def diversifyLoop (lam : ℚ) (top_k : ℕ) :
    ℕ → List SearchResult → List SearchResult → List SearchResult
  | 0, selected, _ => selected
  | fuel + 1, selected, remaining =>
    if selected.length < top_k ∧ remaining ≠ [] then
      match List.insertionSort mmrLe
          (remaining.map (fun c => (mmrScore lam selected c, c))) with
      | [] => selected
      | best :: _ =>
        diversifyLoop lam top_k fuel (selected ++ [best.2]) (remaining.erase best.2)
    else selected

/-- Method `_diversify_results`: return the pool unchanged when it is no larger
than `top_k`; otherwise greedy MMR starting from the most relevant
candidate. -/
def diversifyResults (results : List SearchResult) (top_k : ℕ) (lam : ℚ) :
    List SearchResult :=
  if results.length ≤ top_k then results
  else
    match results with
    | [] => []
    | r0 :: rest => diversifyLoop lam top_k rest.length [r0] rest

/-- Normalization `top_k = top_k or config.TOP_K_RETRIEVAL` at the head of `retrieve`
(the config default is 10, and `0` is falsy in Python). -/
def normTopK (top_k : ℕ) : ℕ :=
  if top_k = 0 then 10 else top_k

/-- The diversification step of `retrieve` (after the vector search):
`_diversify_results` when `diversity_lambda > 0` and the pool exceeds
`top_k`, plain truncation otherwise. -/
def applyDiversity (results : List SearchResult) (top_k : ℕ) (lam : ℚ) :
    List SearchResult :=
  if 0 < lam ∧ top_k < results.length then diversifyResults results top_k lam
  else results.take top_k

/-! ## Answer engine (`answer_engine.py`)

The text-generation model, the retriever and the sidecar paper-metadata
table are external capabilities, passed in as functions. `answerQuestion`
additionally reports how many generation calls it performed. -/

/-- An `Evidence` record of the retriever. -/
structure Evidence where
  text : String
  paper_name : String
  page_num : ℤ
  region_type : String
  region_id : String
  bbox : Bbox
  score : ℚ
  chunk_id : String
deriving DecidableEq

/-- A `RetrievalResult` (the fields the answer engine reads). -/
structure RetrievalResult where
  query : String
  evidence_chunks : List Evidence
  papers_searched : List String
  total_chunks : ℕ
deriving DecidableEq

/-- A sidecar `paper_metadata.json` entry. -/
structure PaperMeta where
  title : String
  topic : String
deriving DecidableEq

/-- The `source` sub-dictionary of `format_evidence_for_display`. -/
structure SourceInfo where
  paper : String
  page : ℤ
  region_type : String
  region_id : String
deriving DecidableEq

/-- The display dictionary built by `format_evidence_for_display`. -/
structure EvidenceDisplay where
  text : String
  source : SourceInfo
  score : ℚ
  citation : String
deriving DecidableEq

/-- Python `round(q, 3)` (round half to even at the third decimal). -/
def pyRound3 (q : ℚ) : ℚ :=
  let y : ℚ := q * 1000
  let f : ℤ := ⌊y⌋
  let r : ℚ := y - f
  let n : ℤ :=
    if r < 1 / 2 then f
    else if 1 / 2 < r then f + 1
    else if 2 ∣ f then f else f + 1
  (n : ℚ) / 1000

/-- Method `RAGRetriever.format_evidence_for_display`. -/
def formatEvidenceForDisplay (e : Evidence) : EvidenceDisplay :=
  ⟨e.text, ⟨e.paper_name, e.page_num, e.region_type, e.region_id⟩,
   pyRound3 e.score,
   e.paper_name ++ ", Page " ++ toString e.page_num⟩

/-- Retrieval statistics attached to an `Answer` (the two fields present
on every path). -/
structure RetrievalStats where
  total_chunks : ℕ
  papers_searched : List String
deriving DecidableEq

/-- An `Answer` record. -/
structure Answer where
  question : String
  answer : String
  evidence : List EvidenceDisplay
  sources : List String
  has_evidence : Bool
  retrieval_stats : RetrievalStats
deriving DecidableEq

/-- Paper title with filename fallback:
`paper_meta.get('title', paper_name)`. -/
def metaTitle (meta : String → Option PaperMeta) (name : String) : String :=
  (meta name).elim name (fun pm => pm.title)

/-- One `[Evidence i]` context block of `_format_context`. -/
def contextBlock (meta : String → Option PaperMeta) (i : ℕ) (e : Evidence) : String :=
  "[Evidence " ++ toString i ++ "]\n" ++
  "Paper: " ++ metaTitle meta e.paper_name ++ "\n" ++
  "Topic: " ++ (meta e.paper_name).elim "Unknown Topic" (fun pm => pm.topic) ++ "\n" ++
  "Source: " ++ e.paper_name ++ ", Page " ++ toString e.page_num ++ "\n" ++
  "Region Type: " ++ e.region_type ++ "\n" ++
  "Content:\n" ++ e.text ++ "\n"

/-- Method `_format_context`: numbered blocks (from 1) joined by newlines. -/
def formatContext (meta : String → Option PaperMeta) (evs : List Evidence) : String :=
  String.intercalate "\n" (evs.enum.map (fun p => contextBlock meta (p.1 + 1) p.2))

/-- The human prompt built in `_generate_answer`. -/
def answerPrompt (question context : String) : String :=
  "Evidence passages:\n\n" ++ context ++ "\n\nQuestion: " ++ question ++
  "\n\nPlease provide an evidence-backed answer following the format specified."

/-- Per-paper aggregation state of `_extract_sources`. -/
structure PaperAgg where
  name : String
  title : String
  topic : String
  pages : List ℤ
deriving DecidableEq

/-- One step of the aggregation loop of `_extract_sources`: record the
paper on first sight (with title/topic looked up, topic default
`'General Research'`), and add the page to its page set. -/
def addEvidence (meta : String → Option PaperMeta) (acc : List PaperAgg)
    (e : Evidence) : List PaperAgg :=
  if acc.any (fun p => p.name = e.paper_name) then
    acc.map (fun p =>
      if p.name = e.paper_name then
        { p with pages := if e.page_num ∈ p.pages then p.pages else p.pages ++ [e.page_num] }
      else p)
  else
    acc ++ [⟨e.paper_name, metaTitle meta e.paper_name,
            (meta e.paper_name).elim "General Research" (fun pm => pm.topic),
            [e.page_num]⟩]

/-- Ordering of `sorted(papers.items())`: by paper name. -/
def nameLe (a b : PaperAgg) : Prop := a.name ≤ b.name

instance : DecidableRel nameLe := fun a b => by unfold nameLe; infer_instance

instance : IsTotal PaperAgg nameLe := ⟨fun a b => le_total a.name b.name⟩

instance : IsTrans PaperAgg nameLe := ⟨fun _ _ _ => le_trans⟩

/-- One source line: `f"{title} (Topic: {topic}) - Pages {…}"` with the
pages listed in ascending order. -/
def sourceLine (p : PaperAgg) : String :=
  let pages := List.insertionSort (· ≤ ·) p.pages
  let pageStr :=
    if pages = [] then "N/A"
    else "Pages " ++ String.intercalate ", " (pages.map toString)
  p.title ++ " (Topic: " ++ p.topic ++ ") - " ++ pageStr

/-- Method `_extract_sources`: aggregate by paper in evidence order, then emit
one line per paper in name order. -/
def extractSources (meta : String → Option PaperMeta) (evs : List Evidence) :
    List String :=
  (List.insertionSort nameLe (evs.foldl (addEvidence meta) [])).map sourceLine

/-- The fixed no-evidence message of `answer_question`. -/
def noEvidenceMessage : String := "No relevant evidence found in the indexed papers."

/-- Method `answer_question`, given the retrieval result for the question and the
generation capability `gen`. The second component counts text-generation
calls. On empty evidence the terminal no-evidence `Answer` is returned and
`gen` is not called. -/
def answerQuestion (gen : String → String) (meta : String → Option PaperMeta)
    (question : String) (retrieval : RetrievalResult) : Answer × ℕ :=
  if retrieval.evidence_chunks = [] then
    (⟨question, noEvidenceMessage, [], [], false, ⟨0, []⟩⟩, 0)
  else
    (⟨question,
      gen (answerPrompt question (formatContext meta retrieval.evidence_chunks)),
      retrieval.evidence_chunks.map formatEvidenceForDisplay,
      extractSources meta retrieval.evidence_chunks,
      true,
      ⟨retrieval.total_chunks, retrieval.papers_searched⟩⟩, 1)

/-- One entry of the multi-hop `reasoning_chain`. -/
structure HopRecord where
  hop : ℕ
  query : String
  answer : String
deriving DecidableEq

/-- Does `pat` occur as a contiguous substring of `s`? -/
def containsSub (pat s : List Char) : Bool :=
  (List.range (s.length + 1)).any (fun p => matchesAt s pat p)

/-- The early-stop test of `multi_hop_reasoning`:
`"sufficient information" in intermediate_answer.lower()`. -/
def sufficientStop (s : String) : Bool :=
  containsSub ("sufficient information".toList) (s.toLower.toList)

/-- Remove later duplicates, keeping first occurrences (used to model
`list(set(...))` of paper names; the source does not rely on its order). -/
def dedupKeepFirst : List String → List String
  | [] => []
  | x :: xs => x :: (dedupKeepFirst xs).filter (fun y => y ≠ x)

/-- The `for hop in range(max_hops)` loop of `multi_hop_reasoning`.
`rem` is the number of hops still allowed (initially `max_hops`); `hop` is
the current hop index. Accumulates evidence and the reasoning chain,
stopping early on empty retrieval or on the sufficiency phrase. -/
def multiHopLoop (retrieve5 : String → RetrievalResult) (gen : String → String)
    (genFollowup : String → String → String) (meta : String → Option PaperMeta)
    (question : String) (max_hops : ℕ) :
    ℕ → ℕ → String → List Evidence → List HopRecord → List Evidence × List HopRecord
  | 0, _, _, evidence, chain => (evidence, chain)
  | rem + 1, hop, query, evidence, chain =>
    let r := retrieve5 query
    if r.evidence_chunks = [] then (evidence, chain)
    else
      let evidence' := evidence ++ r.evidence_chunks
      let intermediate := gen (answerPrompt query (formatContext meta r.evidence_chunks))
      let chain' := chain ++ [⟨hop + 1, query, intermediate⟩]
      if sufficientStop intermediate then (evidence', chain')
      else
        let query' := if hop < max_hops - 1 then genFollowup question intermediate else query
        multiHopLoop retrieve5 gen genFollowup meta question max_hops
          rem (hop + 1) query' evidence' chain'

/-- Method `multi_hop_reasoning`: run the hop loop, then one final synthesis
generation over all accumulated evidence; the returned `Answer` is built
with `has_evidence=True`. -/
def multiHopReasoning (retrieve5 : String → RetrievalResult) (gen : String → String)
    (genFollowup : String → String → String) (meta : String → Option PaperMeta)
    (question : String) (max_hops : ℕ) : Answer :=
  let acc := multiHopLoop retrieve5 gen genFollowup meta question max_hops
    max_hops 0 question [] []
  let final_answer := gen (answerPrompt question (formatContext meta acc.1))
  ⟨question,
   "Multi-hop Reasoning (" ++ toString acc.2.length ++ " hops):\n\n" ++ final_answer,
   acc.1.map formatEvidenceForDisplay,
   extractSources meta acc.1,
   true,
   ⟨acc.1.length, dedupKeepFirst (acc.1.map (fun e => e.paper_name))⟩⟩

/-! ## Answer cache (`answer_cache.py`) -/

/-- A `CachedAnswer` record. -/
structure CachedAnswer where
  question : String
  answer : String
  evidence : List EvidenceDisplay
  sources : List String
  has_evidence : Bool
  retrieval_stats : RetrievalStats
  cached_at : String
deriving DecidableEq

/-- The error-marker test shared by `AnswerCache.get` and
`AnswerCache.has`. -/
def errorMarked (s : String) : Bool :=
  containsSub ("Error generating answer".toList) s.toList ||
  containsSub ("Error code: 402".toList) s.toList

/-- The in-memory cache dictionary, keyed by exact question text. -/
def Cache : Type := String → Option CachedAnswer

/-- Method `AnswerCache.get`: a hit whose (nonempty) answer text carries an error
marker is reported as absent. -/
def cacheGet (cache : Cache) (question : String) : Option CachedAnswer :=
  match cache question with
  | none => none
  | some ca => if ca.answer ≠ "" ∧ errorMarked ca.answer then none else some ca

/-- Method `AnswerCache.has`: cached and not error-marked. -/
def cacheHas (cache : Cache) (question : String) : Bool :=
  match cache question with
  | none => false
  | some ca => !errorMarked ca.answer

/-- Method `AnswerCache.set`: store the answer object under the question key
(`cached_at` is the external clock value). -/
def cacheSet (cache : Cache) (question : String) (a : Answer) (now : String) : Cache :=
  fun q =>
    if q = question then
      some ⟨a.question, a.answer, a.evidence, a.sources, a.has_evidence,
            a.retrieval_stats, now⟩
    else cache q

/-! ## Spec-side model of column clustering

The specification describes the column mean directly as the arithmetic
mean of the members' x-centers ("column mean is a running average of
assigned members' x-centers"), carrying the running sum; the code keeps
the mean incrementally. `specClusterCols` follows the spec's words; the
refinement theorem for C6 identifies it with `clusterCols`. -/

/-- Greedy clustering as worded by the spec: assign the next region to the
current column iff the distance of its x-center to the arithmetic mean of
the current members' x-centers is below the threshold. -/
def specClusterCols (threshold : ℚ) :
    List (ℚ × Region) → List Region → ℚ → List Column → List Column
  | [], members, sum, acc => acc ++ [⟨sum / members.length, members⟩]
  | (x, r) :: rest, members, sum, acc =>
    if |x - sum / members.length| < threshold then
      specClusterCols threshold rest (members ++ [r]) (sum + x) acc
    else
      specClusterCols threshold rest [r] x (acc ++ [⟨sum / members.length, members⟩])

/-- Column detection as worded by the spec. -/
def specDetectColumns (threshold : ℚ) (regions : List Region) : List Column :=
  match List.insertionSort centerLe (regions.map (fun r => (xCenter r, r))) with
  | [] => []
  | (x, r) :: rest => specClusterCols threshold rest [r] x []

/-! ## Statement abbreviations for the claims -/

/-- The conclusion of claim C1 for a given region list: one output per
input, reading orders are the positions `0, 1, 2, …`, pages appear in
nondecreasing blocks, and two same-column regions on a page are ordered by
the strict `(type_priority, y1)` key. -/
def c1Conclusion (regions : List Region) : Prop :=
  (determineReadingOrder regions).length = regions.length ∧
  ((determineReadingOrder regions).map toRegion).Perm regions ∧
  (∀ (i : ℕ) (hi : i < (determineReadingOrder regions).length),
    ((determineReadingOrder regions).get ⟨i, hi⟩).reading_order = i) ∧
  (∀ (i j : ℕ) (hi : i < (determineReadingOrder regions).length)
    (hj : j < (determineReadingOrder regions).length),
    ((determineReadingOrder regions).get ⟨i, hi⟩).page_num <
        ((determineReadingOrder regions).get ⟨j, hj⟩).page_num →
    ((determineReadingOrder regions).get ⟨i, hi⟩).reading_order <
      ((determineReadingOrder regions).get ⟨j, hj⟩).reading_order) ∧
  (∀ (p : ℤ) (col : Column), col ∈ detectColumns 50 (pageRegions regions p) →
    ∀ r s, r ∈ col.regions → s ∈ col.regions → keyLt r s →
    ∀ (i j : ℕ) (hi : i < (determineReadingOrder regions).length)
      (hj : j < (determineReadingOrder regions).length),
      ((determineReadingOrder regions).get ⟨i, hi⟩).region_id = r.region_id →
      ((determineReadingOrder regions).get ⟨j, hj⟩).region_id = s.region_id →
      ((determineReadingOrder regions).get ⟨i, hi⟩).reading_order <
        ((determineReadingOrder regions).get ⟨j, hj⟩).reading_order)

/-- The conclusion of claim C3 as amended: when the chunking loop
terminates, every chunk's character count is at most `4·chunk_size`
(so its approximate token count is at most `chunk_size`); every emitted
chunk is nonempty whenever the region text passes the caller's
10-character filter; and a text within the budget is emitted verbatim as
a single chunk. -/
def c3Conclusion (cfg : ChunkCfg) (m : RegionMeta) (text : List Char)
    (out : List Chunk) : Prop :=
  (∀ c ∈ out, c.text.length ≤ 4 * cfg.size) ∧
  (10 ≤ (pyStrip text).length → ∀ c ∈ out, c.text ≠ []) ∧
  (text.length ≤ 4 * cfg.size → out = [mkChunk m text 0])

/-- The conclusion of claim C6: the code's column detection coincides with
the spec-worded clustering, every detected column's center is the
arithmetic mean of its members' x-centers, and `_order_page_regions`
concatenates the key-sorted columns in ascending order of final center. -/
def c6Conclusion (regions : List Region) : Prop :=
  detectColumns 50 regions = specDetectColumns 50 regions ∧
  (∀ col ∈ detectColumns 50 regions,
    col.regions ≠ [] ∧
    col.x_center = ((col.regions.map xCenter).sum) / col.regions.length) ∧
  orderPageRegions regions =
    ((List.insertionSort colLe (detectColumns 50 regions)).map
      (fun col => List.insertionSort keyLe col.regions)).flatten ∧
  (List.insertionSort colLe (detectColumns 50 regions)).Sorted colLe

/-! ## Concrete data for witnesses and counterexamples -/

/-- The failing input of C2: eight unbreakable characters with
`chunk_size = 1`, `chunk_overlap = 1` (window = overlap = 4 characters). -/
def c2Text : List Char := "aaaaaaaa".toList

/-- Configuration `chunk_size = 1`, `chunk_overlap = 1`. -/
def c2Cfg : ChunkCfg := ⟨1, 1⟩

/-- Counterexample input of C3: `"a b c"` with `chunk_size = 1`,
`chunk_overlap = 0`. -/
def c3Text : List Char := "a b c".toList

/-- Configuration `chunk_size = 1`, `chunk_overlap = 0`. -/
def c3Cfg : ChunkCfg := ⟨1, 0⟩

/-- Witness text for the amended C3. -/
def c3WText : List Char := "abcd efgh ijkl".toList

/-- Witness configuration for the amended C3: `chunk_size = 3`,
`chunk_overlap = 0`. -/
def c3WCfg : ChunkCfg := ⟨3, 0⟩

/-- The chunks `_chunk_text` produces on the C3 witness input. -/
def c3WOut : List Chunk :=
  [mkChunk exMeta ("abcd efgh".toList) 0, mkChunk exMeta ("ijkl".toList) 1]

/-- A search result used in concrete retrieval examples (the distance
field plays no role in diversification and is fixed to 0). -/
def exHit (cid : String) (score : ℚ) : SearchResult :=
  ⟨cid, "t", "P", "r" ++ cid, 0, score⟩

/-- An answer whose text carries the error marker (witness data for C9). -/
def exBadAnswer : Answer :=
  ⟨"q", "Error generating answer: boom", [], [], true, ⟨0, []⟩⟩

/-- A retriever capability that never finds evidence (witness data for
C10). -/
def exEmptyRetrieve : String → RetrievalResult := fun q => ⟨q, [], [], 0⟩

/-- Two regions on one page, one column, with distinct keys (witness data
for C1). -/
def exRegionA : Region := ⟨"idA", "title", ⟨1, 1, 3, 2⟩, 1, 1⟩

/-- Second witness region: same column (center 2), lower on the page. -/
def exRegionB : Region := ⟨"idB", "text", ⟨1, 5, 3, 6⟩, 1, 1⟩

/-! ## C8: the empty-retrieval path of `answer_question` -/

/-- C8: whenever retrieval returns no evidence, `answer_question` returns
the terminal Answer with `has_evidence = false`, the fixed no-evidence
message and empty evidence/sources lists, and performs no text-generation
call (the call counter is 0). -/
theorem c8_no_evidence_answer (gen : String → String)
    (meta : String → Option PaperMeta) (question : String)
    (retrieval : RetrievalResult) (h : retrieval.evidence_chunks = []) :
    answerQuestion gen meta question retrieval =
      (⟨question, noEvidenceMessage, [], [], false, ⟨0, []⟩⟩, 0) := by
  simp [answerQuestion, h]

/-- Witness for C8 at a concrete empty retrieval result. -/
theorem c8_no_evidence_answer_witness :
    (⟨"q", [], [], 0⟩ : RetrievalResult).evidence_chunks = [] ∧
    answerQuestion (fun _ => "generated") (fun _ => none) "q" ⟨"q", [], [], 0⟩ =
      (⟨"q", noEvidenceMessage, [], [], false, ⟨0, []⟩⟩, 0) :=
  ⟨rfl, c8_no_evidence_answer (fun _ => "generated") (fun _ => none) "q" _ rfl⟩

/-! ## C9: error-marked cache entries behave as absent -/

/-- An error-marked string is nonempty. -/
theorem errorMarked_ne_empty (s : String) (h : errorMarked s = true) : s ≠ "" := by
  intro he
  subst he
  exact absurd h (by decide)

/-- C9: after `set(question, answer)` with an error-marked answer text,
`has(question)` is false and `get(question)` is absent. -/
theorem c9_error_masking (cache : Cache) (question : String) (a : Answer)
    (now : String) (h : errorMarked a.answer = true) :
    cacheHas (cacheSet cache question a now) question = false ∧
    cacheGet (cacheSet cache question a now) question = none := by
  constructor
  · simp [cacheHas, cacheSet, h]
  · simp [cacheGet, cacheSet, h, errorMarked_ne_empty a.answer h]

/-- Witness for C9 at a concrete error-marked answer. -/
theorem c9_error_masking_witness :
    errorMarked exBadAnswer.answer = true ∧
    cacheHas (cacheSet (fun _ => none) "q" exBadAnswer "now") "q" = false ∧
    cacheGet (cacheSet (fun _ => none) "q" exBadAnswer "now") "q" = none :=
  ⟨by decide,
   (c9_error_masking (fun _ => none) "q" exBadAnswer "now" (by decide)).1,
   (c9_error_masking (fun _ => none) "q" exBadAnswer "now" (by decide)).2⟩

/-! ## C10: `multi_hop_reasoning` always reports evidence -/

/-- The hop loop on a retriever that never returns evidence accumulates
nothing. -/
theorem multiHopLoop_empty (retrieve5 : String → RetrievalResult)
    (gen : String → String) (genFollowup : String → String → String)
    (meta : String → Option PaperMeta) (question : String) (max_hops : ℕ)
    (hempty : ∀ q, (retrieve5 q).evidence_chunks = []) :
    ∀ rem hop query,
      multiHopLoop retrieve5 gen genFollowup meta question max_hops
        rem hop query [] [] = ([], []) := by
  intro rem hop query
  cases rem with
  | zero => rfl
  | succ n => simp [multiHopLoop, hempty query]

/-- C10: `multi_hop_reasoning` builds its `Answer` with
`has_evidence = True` unconditionally; in particular, when every hop
retrieves zero evidence chunks, the returned answer still has
`has_evidence = true` together with empty evidence and sources lists, so
the terminal no-evidence state of `answer_question` is never produced. -/
theorem c10_multi_hop_has_evidence (retrieve5 : String → RetrievalResult)
    (gen : String → String) (genFollowup : String → String → String)
    (meta : String → Option PaperMeta) (question : String) (max_hops : ℕ) :
    (multiHopReasoning retrieve5 gen genFollowup meta question max_hops).has_evidence
      = true ∧
    ((∀ q, (retrieve5 q).evidence_chunks = []) →
      (multiHopReasoning retrieve5 gen genFollowup meta question max_hops).evidence = [] ∧
      (multiHopReasoning retrieve5 gen genFollowup meta question max_hops).sources = []) := by
  constructor
  · rfl
  · intro hempty
    simp [multiHopReasoning,
      multiHopLoop_empty retrieve5 gen genFollowup meta question max_hops hempty,
      extractSources]

/-- Witness for C10 at concrete capabilities with an always-empty
retriever. -/
theorem c10_multi_hop_has_evidence_witness :
    (multiHopReasoning exEmptyRetrieve (fun _ => "g") (fun _ _ => "f")
      (fun _ => none) "q" 3).has_evidence = true ∧
    (multiHopReasoning exEmptyRetrieve (fun _ => "g") (fun _ _ => "f")
      (fun _ => none) "q" 3).evidence = [] ∧
    (multiHopReasoning exEmptyRetrieve (fun _ => "g") (fun _ _ => "f")
      (fun _ => none) "q" 3).sources = [] := by
  obtain ⟨h1, h2⟩ := c10_multi_hop_has_evidence exEmptyRetrieve (fun _ => "g")
    (fun _ _ => "f") (fun _ => none) "q" 3
  exact ⟨h1, (h2 (fun q => rfl)).1, (h2 (fun q => rfl)).2⟩

/-! ## C7: retrieval scores

The claim states `score = 1 − cosine_distance` (true) and `score ∈ [0, 1]`
(false: the reported cosine distance ranges over `[0, 2]`, and the code
does not clamp, so the score ranges over `[-1, 1]`). -/

/-- Counterexample for C7 as stated: at cosine distance 2 (an antipodal
pair, within the valid range `[0, 2]` of the metric) the formatted score
is `1 − 2 = −1`, which is not in `[0, 1]`. -/
theorem c7_counterexample :
    (formatHit ⟨"c", "t", "P", "r", 2⟩).score = -1 ∧
    ¬ (0 ≤ (formatHit ⟨"c", "t", "P", "r", 2⟩).score ∧
        (formatHit ⟨"c", "t", "P", "r", 2⟩).score ≤ 1) := by
  have h1 : (formatHit ⟨"c", "t", "P", "r", 2⟩).score = -1 := by
    simp [formatHit]
    norm_num
  refine ⟨h1, fun hc => ?_⟩
  rw [h1] at hc
  exact absurd hc.1 (by norm_num)

/-- C7 as amended: every result of `VectorStore.search` has
`score = 1 − distance`, and whenever the reported cosine distance lies in
its valid range `[0, 2]` the score lies in `[-1, 1]` (it lies in `[0, 1]`
only when the distance is at most 1). -/
theorem c7_score_formula (hits : List RawHit) (r : SearchResult)
    (hr : r ∈ searchFormat hits) :
    r.score = 1 - r.distance ∧
    (0 ≤ r.distance → r.distance ≤ 2 → -1 ≤ r.score ∧ r.score ≤ 1) := by
  obtain ⟨h, _, rfl⟩ := List.mem_map.mp hr
  simp only [formatHit]
  refine ⟨trivial, fun h0 h2 => ⟨?_, ?_⟩⟩ <;> linarith

/-! ## C2: the chunking loop does not guard against a stuck start

On `chunk_size = 1`, `chunk_overlap = 1` and the text `"aaaaaaaa"` (no
break characters), each iteration computes `end = start + 4`, emits
`"aaaa"`, and sets `start = end - 4 = start`: the start never advances and
the only exit test `start >= len(text)` never fires. -/

/-- One iteration of the loop on the C2 failing input maps the state
`start = 0` back to `start = 0`, emitting the same chunk text again. -/
theorem c2_loop_step (n : ℕ) (idx : ℕ) (acc : List Chunk) :
    chunkLoop c2Cfg exMeta c2Text (n + 1) 0 idx acc =
      chunkLoop c2Cfg exMeta c2Text n 0 (idx + 1)
        (acc ++ [mkChunk exMeta ("aaaa".toList) idx]) := rfl

/-- C2: the claim states the multi-chunk loop of `_chunk_text` always
terminates (a guard stops it when the new start fails to advance). This is
false: on `chunk_size = 1`, `chunk_overlap = 1`, text `"aaaaaaaa"`, the
loop never returns, i.e. it exhausts every fuel bound. -/
theorem c2_loop_diverges :
    ∀ (fuel idx : ℕ) (acc : List Chunk),
      chunkLoop c2Cfg exMeta c2Text fuel 0 idx acc = none := by
  intro fuel
  induction fuel with
  | zero => intro idx acc; rfl
  | succ n ih =>
    intro idx acc
    rw [c2_loop_step]
    exact ih (idx + 1) (acc ++ [mkChunk exMeta ("aaaa".toList) idx])

/-! ## C3: chunk coverage -/

/-- Clamped slice endpoints never exceed the text length. -/
theorem clampIdx_le_length (len : ℕ) (i : ℤ) : clampIdx len i ≤ len := by
  unfold clampIdx
  split <;> omega

/-- Moving a slice endpoint right by `c` moves its clamped value right by
at most `c`. -/
theorem clampIdx_add_le (len : ℕ) (i : ℤ) (c : ℕ) :
    clampIdx len (i + (c : ℤ)) ≤ clampIdx len i + c := by
  unfold clampIdx
  split <;> split <;> omega

/-- The length of a Python slice. -/
theorem pySlice_length (s : List Char) (i j : ℤ) :
    (pySlice s i j).length = clampIdx s.length j - clampIdx s.length i := by
  unfold pySlice
  rw [List.length_drop, List.length_take]
  have := clampIdx_le_length s.length j
  omega

/-- Python `strip` does not lengthen a string. -/
theorem pyStrip_length_le (s : List Char) : (pyStrip s).length ≤ s.length := by
  unfold pyStrip
  calc ((s.dropWhile pyIsSpace).reverse.dropWhile pyIsSpace).reverse.length
      = ((s.dropWhile pyIsSpace).reverse.dropWhile pyIsSpace).length := by
        rw [List.length_reverse]
    _ ≤ (s.dropWhile pyIsSpace).reverse.length :=
        (List.dropWhile_sublist pyIsSpace).length_le
    _ = (s.dropWhile pyIsSpace).length := by rw [List.length_reverse]
    _ ≤ s.length := (List.dropWhile_sublist pyIsSpace).length_le

/-- A successful `rfind` stays within the clamped search window. -/
theorem pyRfind_le (s pat : List Char) (i j : ℤ) (p : ℕ)
    (h : pyRfind s pat i j = some p) :
    p + pat.length ≤ clampIdx s.length j := by
  unfold pyRfind at h
  have hmem := List.mem_of_mem_getLast? h
  rw [List.mem_filter] at hmem
  have hcond := hmem.2
  simp only [Bool.and_eq_true, decide_eq_true_eq] at hcond
  exact hcond.1.2

/-- A successful break-point search returns a new end within the clamped
raw window end. -/
theorem breakPoint_le (text : List Char) (s e : ℤ) (b : ℕ)
    (h : breakPoint text s e = some b) :
    b ≤ clampIdx text.length e := by
  unfold breakPoint at h
  cases hfm : breakSeqs.filterMap
      (fun bc => (pyRfind text bc s e).map (fun p => p + bc.length)) with
  | nil => rw [hfm] at h; exact absurd h (by simp)
  | cons x xs =>
    rw [hfm] at h
    have hx : x = b := by simpa using h
    subst hx
    have hmem : x ∈ breakSeqs.filterMap
        (fun bc => (pyRfind text bc s e).map (fun p => p + bc.length)) := by
      rw [hfm]; exact List.mem_cons_self x xs
    obtain ⟨bc, _, hmap⟩ := List.mem_filterMap.mp hmem
    obtain ⟨p, hp, hpb⟩ := Option.map_eq_some'.mp hmap
    have := pyRfind_le text bc s e p hp
    omega

/-- The window end is the raw end or a break point inside the clamped raw
window. -/
theorem windowEnd_cases (cfg : ChunkCfg) (text : List Char) (start : ℤ) :
    windowEnd cfg text start = start + 4 * (cfg.size : ℤ) ∨
    ∃ b : ℕ, windowEnd cfg text start = (b : ℤ) ∧
      b ≤ clampIdx text.length (start + 4 * (cfg.size : ℤ)) := by
  unfold windowEnd
  split
  · cases hbp : breakPoint text start (start + 4 * (cfg.size : ℤ)) with
    | none => left; rfl
    | some b => right; exact ⟨b, rfl, breakPoint_le _ _ _ _ hbp⟩
  · left; rfl

/-- Every emitted chunk text fits in the character window
`4 * chunk_size`. -/
theorem emitted_chunk_le (cfg : ChunkCfg) (text : List Char) (start : ℤ) :
    (pyStrip (pySlice text start (windowEnd cfg text start))).length ≤
      4 * cfg.size := by
  refine le_trans (pyStrip_length_le _) ?_
  rw [pySlice_length]
  have h1 := clampIdx_add_le text.length start (4 * cfg.size)
  have hcast : ((4 * cfg.size : ℕ) : ℤ) = 4 * (cfg.size : ℤ) := by push_cast; ring
  rw [hcast] at h1
  rcases windowEnd_cases cfg text start with he | ⟨b, he, hb⟩ <;> rw [he]
  · omega
  · have h2 : clampIdx text.length (b : ℤ) ≤ b := by
      unfold clampIdx; split <;> omega
    omega

/-- Exiting the loop with `some` only ever adds nonempty, size-bounded
chunk texts to the accumulator. -/
theorem chunkLoop_chunks (cfg : ChunkCfg) (m : RegionMeta) (text : List Char) :
    ∀ (fuel : ℕ) (start : ℤ) (idx : ℕ) (acc out : List Chunk),
      chunkLoop cfg m text fuel start idx acc = some out →
      (∀ c ∈ acc, c.text ≠ [] ∧ c.text.length ≤ 4 * cfg.size) →
      ∀ c ∈ out, c.text ≠ [] ∧ c.text.length ≤ 4 * cfg.size := by
  intro fuel
  induction fuel with
  | zero =>
    intro start idx acc out h hacc
    exact absurd h (by simp [chunkLoop])
  | succ n ih =>
    intro start idx acc out h hacc
    simp only [chunkLoop] at h
    split at h
    case isTrue hlt =>
      have hnew : ∀ c ∈ (if pyStrip (pySlice text start (windowEnd cfg text start)) = []
          then acc
          else acc ++ [mkChunk m (pyStrip (pySlice text start (windowEnd cfg text start))) idx]),
          c.text ≠ [] ∧ c.text.length ≤ 4 * cfg.size := by
        split
        · exact hacc
        case isFalse hne =>
          intro c hc
          rcases List.mem_append.mp hc with h1 | h2
          · exact hacc c h1
          · have hceq : c = mkChunk m
                (pyStrip (pySlice text start (windowEnd cfg text start))) idx := by
              simpa using h2
            subst hceq
            exact ⟨by simpa [mkChunk] using hne,
                   by simpa [mkChunk] using emitted_chunk_le cfg text start⟩
      split at h <;> split at h <;>
        first
          | (injection h with h; subst h; exact hnew)
          | exact ih _ _ _ out h hnew
    case isFalse hge =>
      injection h with h
      subst h
      exact hacc

/-- C3 as amended: on every input on which the loop terminates, every
chunk's `len/4`-token estimate is within `chunk_size` (unconditionally —
no unbreakable-span overflow is possible), no chunk is empty given the
caller's 10-character region filter, and a within-budget text is returned
verbatim as one chunk. Exact reconstruction of the region text from the
chunk texts fails in general because each emitted text is
whitespace-stripped (see the counterexample). -/
theorem c3_chunk_bounds (cfg : ChunkCfg) (m : RegionMeta) (text : List Char)
    (fuel : ℕ) (out : List Chunk) (h : chunkText cfg m text fuel = some out) :
    c3Conclusion cfg m text out := by
  unfold chunkText at h
  unfold c3Conclusion
  split at h
  case isTrue hle =>
    injection h with h
    subst h
    refine ⟨?_, ?_, fun _ => rfl⟩
    · intro c hc
      have hceq : c = mkChunk m text 0 := by simpa using hc
      subst hceq
      simpa [mkChunk] using hle
    · intro h10 c hc
      have hceq : c = mkChunk m text 0 := by simpa using hc
      subst hceq
      have hlen := pyStrip_length_le text
      have : 0 < text.length := by omega
      simpa [mkChunk] using List.ne_nil_of_length_pos this
  case isFalse hgt =>
    have hout := chunkLoop_chunks cfg m text fuel 0 0 [] out h (by simp)
    exact ⟨fun c hc => (hout c hc).2, fun _ c hc => (hout c hc).1,
           fun hle => absurd hle hgt⟩

/-- Counterexample for C3 as stated: with `chunk_size = 1` and
`chunk_overlap = 0` (so there are no overlapping portions to remove), the
region text `"a b c"` is chunked into `"a b"` and `"c"` — the trailing
space of the first window is stripped — and the concatenation `"a bc"`
does not reconstruct the original text. -/
theorem c3_counterexample :
    (chunkText c3Cfg exMeta c3Text 10).map
        (fun cs => (cs.map (fun c => c.text)).flatten) = some ("a bc".toList) ∧
    ("a bc".toList : List Char) ≠ c3Text := by
  constructor <;> decide

/-- Witness for the amended C3 at a concrete 14-character text with
`chunk_size = 3`, `chunk_overlap = 0`. -/
theorem c3_chunk_bounds_witness :
    chunkText c3WCfg exMeta c3WText 5 = some c3WOut ∧
    c3Conclusion c3WCfg exMeta c3WText c3WOut :=
  ⟨by decide, c3_chunk_bounds c3WCfg exMeta c3WText 5 c3WOut (by decide)⟩

/-- Witness for C7 (amended) at a concrete hit with distance 1. -/
theorem c7_score_formula_witness :
    formatHit ⟨"c", "t", "P", "r", 1⟩ ∈ searchFormat [⟨"c", "t", "P", "r", 1⟩] ∧
    ((formatHit ⟨"c", "t", "P", "r", 1⟩).score =
      1 - (formatHit ⟨"c", "t", "P", "r", 1⟩).distance ∧
    (0 ≤ (formatHit ⟨"c", "t", "P", "r", 1⟩).distance →
      (formatHit ⟨"c", "t", "P", "r", 1⟩).distance ≤ 2 →
      -1 ≤ (formatHit ⟨"c", "t", "P", "r", 1⟩).score ∧
        (formatHit ⟨"c", "t", "P", "r", 1⟩).score ≤ 1)) :=
  ⟨by simp [searchFormat],
   c7_score_formula [⟨"c", "t", "P", "r", 1⟩] _ (by simp [searchFormat])⟩

/-! ## C4 and C5: the MMR diversification loop -/

/-- The head of the sorted MMR candidate list is one of the remaining
candidates. -/
theorem diversify_best_mem (lam : ℚ) (selected remaining : List SearchResult)
    (best : ℚ × SearchResult) (rest' : List (ℚ × SearchResult))
    (h : List.insertionSort mmrLe
        (remaining.map (fun c => (mmrScore lam selected c, c))) = best :: rest') :
    best.2 ∈ remaining := by
  have hmem : best ∈ List.insertionSort mmrLe
      (remaining.map (fun c => (mmrScore lam selected c, c))) := by
    rw [h]
    exact List.mem_cons_self _ _
  have hmem2 := (List.perm_insertionSort mmrLe _).subset hmem
  obtain ⟨c, hc, heq⟩ := List.mem_map.mp hmem2
  rw [← heq]
  exact hc

/-- One selection step of the loop, in equation form. -/
theorem diversifyLoop_cons (lam : ℚ) (k n : ℕ) (sel rem : List SearchResult)
    (best : ℚ × SearchResult) (rest' : List (ℚ × SearchResult))
    (hs : List.insertionSort mmrLe
        (rem.map (fun c => (mmrScore lam sel c, c))) = best :: rest')
    (hcond : sel.length < k ∧ rem ≠ []) :
    diversifyLoop lam k (n + 1) sel rem =
      diversifyLoop lam k n (sel ++ [best.2]) (rem.erase best.2) := by
  rw [diversifyLoop, if_pos hcond, hs]

/-- Length of the loop result, given fuel equal to the remaining pool. -/
theorem diversifyLoop_length (lam : ℚ) (k : ℕ) :
    ∀ (fuel : ℕ) (sel rem : List SearchResult), rem.length = fuel →
      (diversifyLoop lam k fuel sel rem).length =
        if k ≤ sel.length then sel.length else min k (sel.length + fuel) := by
  intro fuel
  induction fuel with
  | zero =>
    intro sel rem hlen
    simp only [diversifyLoop]
    split <;> omega
  | succ n ih =>
    intro sel rem hlen
    have hne : rem ≠ [] := by
      intro he
      rw [he] at hlen
      simp at hlen
    by_cases hsel : sel.length < k
    · cases hs : List.insertionSort mmrLe
          (rem.map (fun c => (mmrScore lam sel c, c))) with
      | nil =>
        exfalso
        have hp := (List.perm_insertionSort mmrLe
          (rem.map (fun c => (mmrScore lam sel c, c)))).length_eq
        rw [hs] at hp
        simp at hp
        exact hne (List.length_eq_zero.mp hp.symm)
      | cons best rest' =>
        rw [diversifyLoop_cons lam k n sel rem best rest' hs ⟨hsel, hne⟩]
        have hbm := diversify_best_mem lam sel rem best rest' hs
        have herase : (rem.erase best.2).length = n := by
          rw [List.length_erase_of_mem hbm]
          omega
        rw [ih (sel ++ [best.2]) (rem.erase best.2) herase]
        simp only [List.length_append, List.length_cons, List.length_nil]
        split <;> split <;> omega
    · rw [diversifyLoop, if_neg (fun hc => hsel hc.1)]
      split <;> omega

/-- The loop never duplicates a chunk id when the selected and remaining
pools jointly have distinct ids. -/
theorem diversifyLoop_nodup (lam : ℚ) (k : ℕ) :
    ∀ (fuel : ℕ) (sel rem : List SearchResult),
      ((sel ++ rem).map (fun r => r.chunk_id)).Nodup →
      ((diversifyLoop lam k fuel sel rem).map (fun r => r.chunk_id)).Nodup := by
  intro fuel
  induction fuel with
  | zero =>
    intro sel rem h
    simp only [diversifyLoop]
    rw [List.map_append] at h
    exact h.of_append_left
  | succ n ih =>
    intro sel rem h
    rw [diversifyLoop]
    split
    case isTrue hcond =>
      cases hs : List.insertionSort mmrLe
          (rem.map (fun c => (mmrScore lam sel c, c))) with
      | nil =>
        rw [List.map_append] at h
        exact h.of_append_left
      | cons best rest' =>
        have hbm := diversify_best_mem lam sel rem best rest' hs
        have hperm : (sel ++ [best.2] ++ rem.erase best.2).Perm (sel ++ rem) := by
          rw [List.append_assoc]
          exact List.Perm.append_left sel (List.perm_cons_erase hbm).symm
        exact ih (sel ++ [best.2]) (rem.erase best.2)
          (((hperm.map (fun r => r.chunk_id)).nodup_iff).mpr h)
    case isFalse =>
      rw [List.map_append] at h
      exact h.of_append_left

/-- Counterexample for C5 as stated ("for every candidate list"): on a
candidate list that repeats a chunk id, `_diversify_results` with
`top_k = 2` returns the pool unchanged (the `len(results) <= top_k`
shortcut), so the output repeats a chunk id. -/
theorem c5_counterexample :
    ¬ (((diversifyResults [exHit "c1" 1, exHit "c1" 1] 2 1).map
        (fun r => r.chunk_id)).Nodup) := by
  decide

/-- C5 as amended: for every candidate list with pairwise-distinct chunk
ids (as the vector store produces) and every `top_k ≥ 1`, the MMR
diversification output has no repeated chunk id and has length
`min(top_k, |candidates|)`. -/
theorem c5_mmr_unique (results : List SearchResult) (top_k : ℕ) (lam : ℚ)
    (hk : 1 ≤ top_k) (hnd : (results.map (fun r => r.chunk_id)).Nodup) :
    ((diversifyResults results top_k lam).map (fun r => r.chunk_id)).Nodup ∧
    (diversifyResults results top_k lam).length = min top_k results.length := by
  unfold diversifyResults
  split
  case isTrue hle => exact ⟨hnd, by omega⟩
  case isFalse hgt =>
    cases results with
    | nil => simp at hgt
    | cons r0 rest =>
      have hlen : ¬ ((r0 :: rest).length ≤ top_k) := hgt
      simp only [List.length_cons] at hlen
      constructor
      · exact diversifyLoop_nodup lam top_k rest.length [r0] rest hnd
      · rw [diversifyLoop_length lam top_k rest.length [r0] rest rfl]
        simp only [List.length_cons, List.length_nil]
        split <;> omega

/-- Witness for the amended C5 on three distinct candidates with
`top_k = 2`. -/
theorem c5_mmr_unique_witness :
    (1 ≤ 2 ∧
      (([exHit "a" 3, exHit "b" 2, exHit "c" 1].map (fun r => r.chunk_id)).Nodup)) ∧
    (((diversifyResults [exHit "a" 3, exHit "b" 2, exHit "c" 1] 2 1).map
        (fun r => r.chunk_id)).Nodup ∧
      (diversifyResults [exHit "a" 3, exHit "b" 2, exHit "c" 1] 2 1).length =
        min 2 [exHit "a" 3, exHit "b" 2, exHit "c" 1].length) :=
  ⟨⟨by decide, by decide⟩,
   c5_mmr_unique [exHit "a" 3, exHit "b" 2, exHit "c" 1] 2 1 (by decide) (by decide)⟩

/-- At `λ = 1` the MMR score of a candidate is its relevance score. -/
theorem mmrScore_one (sel : List SearchResult) (c : SearchResult) :
    mmrScore 1 sel c = c.score := by
  unfold mmrScore
  ring

/-- On a score-sorted pool, the MMR sort at `λ = 1` changes nothing. -/
theorem insertionSort_pairs_sorted (sel : List SearchResult)
    (l : List SearchResult) (h : l.Pairwise scoreGe) :
    List.insertionSort mmrLe (l.map (fun c => (mmrScore 1 sel c, c))) =
      l.map (fun c => (mmrScore 1 sel c, c)) := by
  apply List.Sorted.insertionSort_eq
  exact h.map _ (fun a b hab => by
    show mmrLe (mmrScore 1 sel a, a) (mmrScore 1 sel b, b)
    unfold mmrLe
    rw [mmrScore_one, mmrScore_one]
    exact hab)

/-- On a score-sorted pool the `λ = 1` loop selects the pool prefix in
order. -/
theorem diversifyLoop_take (k : ℕ) (results : List SearchResult)
    (h : results.Pairwise scoreGe) :
    ∀ (fuel m : ℕ), 1 ≤ m → m + fuel = results.length →
      diversifyLoop 1 k fuel (results.take m) (results.drop m) =
        results.take (max m (min k results.length)) := by
  intro fuel
  induction fuel with
  | zero =>
    intro m hm hlen
    rw [diversifyLoop]
    rw [List.take_of_length_le (by omega), List.take_of_length_le (by omega)]
  | succ n ih =>
    intro m hm hlen
    have hmlt : m < results.length := by omega
    have htklen : (results.take m).length = m := by
      rw [List.length_take]
      omega
    have hdropne : results.drop m ≠ [] := by
      rw [Ne, List.drop_eq_nil_iff]
      omega
    by_cases hk : m < k
    · have hcond : (results.take m).length < k ∧ results.drop m ≠ [] := by
        rw [htklen]
        exact ⟨hk, hdropne⟩
      have hdropP : (results.drop m).Pairwise scoreGe :=
        h.sublist (List.drop_sublist _ _)
      have hdrop : results.drop m = results[m] :: results.drop (m + 1) :=
        List.drop_eq_getElem_cons hmlt
      have hs : List.insertionSort mmrLe
          ((results.drop m).map (fun c => (mmrScore 1 (results.take m) c, c))) =
          (mmrScore 1 (results.take m) results[m], results[m]) ::
            (results.drop (m + 1)).map
              (fun c => (mmrScore 1 (results.take m) c, c)) := by
        rw [insertionSort_pairs_sorted _ _ hdropP]
        rw [hdrop, List.map_cons]
      rw [diversifyLoop_cons 1 k n _ _ _ _ hs hcond]
      show diversifyLoop 1 k n (results.take m ++ [results[m]])
          ((results.drop m).erase results[m]) =
        results.take (max m (min k results.length))
      have herase2 : (results.drop m).erase results[m] = results.drop (m + 1) := by
        rw [hdrop]
        exact List.erase_cons_head _ _
      rw [List.take_concat_get' results m hmlt, herase2]
      rw [ih (m + 1) (by omega) (by omega)]
      congr 1
      omega
    · rw [diversifyLoop, if_neg (fun hc => hk (htklen ▸ hc.1))]
      congr 1
      omega

/-- On a score-sorted pool, `_diversify_results` at `λ = 1` is truncation
to `top_k`. -/
theorem diversify_results_one (results : List SearchResult) (k : ℕ)
    (hk : 1 ≤ k) (h : results.Pairwise scoreGe) :
    diversifyResults results k 1 = results.take k := by
  unfold diversifyResults
  split
  case isTrue hle => rw [List.take_of_length_le hle]
  case isFalse hgt =>
    cases results with
    | nil => simp at hgt
    | cons r0 rest =>
      have hlen : ¬ ((r0 :: rest).length ≤ k) := hgt
      simp only [List.length_cons] at hlen
      have hloop := diversifyLoop_take k (r0 :: rest) h rest.length 1
        (by omega) (by simp only [List.length_cons]; omega)
      rw [show max 1 (min k (r0 :: rest).length) = k by
        simp only [List.length_cons]
        omega] at hloop
      exact hloop

/-- The `top_k or config.TOP_K_RETRIEVAL` normalization never yields 0. -/
theorem normTopK_pos (k : ℕ) : 1 ≤ normTopK k := by
  unfold normTopK
  split <;> omega

/-- C4: on the (score-sorted) candidate pool, `retrieve` with
`diversity_lambda = 0` skips diversification and truncates to top-k, and
with `diversity_lambda = 1` the MMR selection equals the same truncation
of the score-ordered pool. -/
theorem c4_boundary_lambdas (results : List SearchResult) (top_k : ℕ)
    (h : results.Pairwise scoreGe) :
    applyDiversity results (normTopK top_k) 0 = results.take (normTopK top_k) ∧
    applyDiversity results (normTopK top_k) 1 = results.take (normTopK top_k) := by
  constructor
  · unfold applyDiversity
    rw [if_neg (fun hc => absurd hc.1 (lt_irrefl (0 : ℚ)))]
  · unfold applyDiversity
    split
    case isTrue hc =>
      exact diversify_results_one results (normTopK top_k) (normTopK_pos top_k) h
    case isFalse => rfl

/-! ## C6: greedy column clustering

The code keeps the running column mean incrementally
(`(x_center*(n−1) + x)/n`); the spec words it as the arithmetic mean of
the members' x-centers. The refinement theorem identifies the two. -/

/-- The incremental-mean clustering loop equals the spec-worded
running-sum loop whenever the current center is the mean of the current
members. -/
theorem clusterCols_eq_spec (th : ℚ) :
    ∀ (rest : List (ℚ × Region)) (regs : List Region) (xc : ℚ)
      (acc : List Column) (sum : ℚ),
      regs ≠ [] → xc = sum / (regs.length : ℚ) →
      clusterCols th rest ⟨xc, regs⟩ acc = specClusterCols th rest regs sum acc := by
  intro rest
  induction rest with
  | nil =>
    intro regs xc acc sum hne hc
    rw [clusterCols, specClusterCols, hc]
  | cons p rest ih =>
    obtain ⟨x, r⟩ := p
    intro regs xc acc sum hne hc
    subst hc
    rw [clusterCols, specClusterCols]
    dsimp only
    by_cases hcond : |x - sum / (regs.length : ℚ)| < th
    · rw [if_pos hcond, if_pos hcond]
      have hlen0 : (regs.length : ℚ) ≠ 0 :=
        Nat.cast_ne_zero.mpr (fun h0 => hne (List.length_eq_zero.mp h0))
      have hcen : (sum / (regs.length : ℚ) * (((regs.length : ℚ) + 1) - 1) + x) /
            ((regs.length : ℚ) + 1) =
          (sum + x) / (((regs ++ [r]).length : ℚ)) := by
        rw [List.length_append, List.length_cons, List.length_nil]
        push_cast
        rw [add_sub_cancel_right, div_mul_cancel₀ sum hlen0]
      exact ih (regs ++ [r]) _ acc (sum + x) (by simp) hcen
    · rw [if_neg hcond, if_neg hcond]
      exact ih [r] x (acc ++ [⟨sum / (regs.length : ℚ), regs⟩]) x
        (by simp) (by norm_num)

/-- Method `_detect_columns` computes exactly the spec-worded clustering. -/
theorem detectColumns_eq_spec (th : ℚ) (regions : List Region) :
    detectColumns th regions = specDetectColumns th regions := by
  unfold detectColumns specDetectColumns
  cases hs : List.insertionSort centerLe (regions.map (fun r => (xCenter r, r))) with
  | nil => rfl
  | cons p rest =>
    obtain ⟨x, r⟩ := p
    exact clusterCols_eq_spec th rest [r] x [] x (by simp) (by norm_num)

/-- Every column produced by the spec-worded loop is nonempty with center
the arithmetic mean of its members' x-centers. -/
theorem specClusterCols_mean (th : ℚ) :
    ∀ (rest : List (ℚ × Region)) (regs : List Region) (sum : ℚ)
      (acc : List Column),
      (∀ pr ∈ rest, pr.1 = xCenter pr.2) →
      sum = ((regs.map xCenter).sum) →
      regs ≠ [] →
      (∀ col ∈ acc, col.regions ≠ [] ∧
        col.x_center = ((col.regions.map xCenter).sum) / col.regions.length) →
      ∀ col ∈ specClusterCols th rest regs sum acc,
        col.regions ≠ [] ∧
        col.x_center = ((col.regions.map xCenter).sum) / col.regions.length := by
  intro rest
  induction rest with
  | nil =>
    intro regs sum acc hrest hsum hne hacc col hcol
    rw [specClusterCols] at hcol
    rcases List.mem_append.mp hcol with h1 | h2
    · exact hacc col h1
    · have hceq : col = ⟨sum / (regs.length : ℚ), regs⟩ := by simpa using h2
      subst hceq
      exact ⟨hne, by rw [hsum]⟩
  | cons p rest ih =>
    obtain ⟨x, r⟩ := p
    intro regs sum acc hrest hsum hne hacc col hcol
    rw [specClusterCols] at hcol
    have hx : x = xCenter r := hrest (x, r) (List.mem_cons_self _ _)
    split at hcol
    · exact ih (regs ++ [r]) (sum + x) acc
        (fun pr hpr => hrest pr (List.mem_cons_of_mem _ hpr))
        (by rw [List.map_append, List.sum_append, hsum, hx]; simp)
        (by simp) hacc col hcol
    · refine ih [r] x (acc ++ [⟨sum / (regs.length : ℚ), regs⟩])
        (fun pr hpr => hrest pr (List.mem_cons_of_mem _ hpr))
        (by simp [hx]) (by simp) ?_ col hcol
      intro c hc
      rcases List.mem_append.mp hc with h1 | h2
      · exact hacc c h1
      · have hceq : c = ⟨sum / (regs.length : ℚ), regs⟩ := by simpa using h2
        subst hceq
        exact ⟨hne, by rw [hsum]⟩

/-- Method `_detect_columns` columns are nonempty and carry the arithmetic mean
of their members as center. -/
theorem detectColumns_mean (regions : List Region) :
    ∀ col ∈ detectColumns 50 regions, col.regions ≠ [] ∧
      col.x_center = ((col.regions.map xCenter).sum) / col.regions.length := by
  rw [detectColumns_eq_spec]
  unfold specDetectColumns
  cases hs : List.insertionSort centerLe (regions.map (fun r => (xCenter r, r))) with
  | nil =>
    intro col hcol
    exact absurd hcol (by simp)
  | cons p rest =>
    obtain ⟨x, r⟩ := p
    have hhead : x = xCenter r := by
      have hm : (x, r) ∈ List.insertionSort centerLe
          (regions.map (fun r => (xCenter r, r))) := by
        rw [hs]
        exact List.mem_cons_self _ _
      have hm2 := (List.perm_insertionSort centerLe _).subset hm
      obtain ⟨r', _, heq⟩ := List.mem_map.mp hm2
      injection heq with h1 h2
      subst h2
      exact h1.symm
    apply specClusterCols_mean 50 rest [r] x []
    · intro pr hpr
      have hm : pr ∈ List.insertionSort centerLe
          (regions.map (fun r => (xCenter r, r))) := by
        rw [hs]
        exact List.mem_cons_of_mem _ hpr
      have hm2 := (List.perm_insertionSort centerLe _).subset hm
      obtain ⟨r', _, heq⟩ := List.mem_map.mp hm2
      rw [← heq]
    · simp [hhead]
    · simp
    · intro c hc
      exact absurd hc (by simp)

/-- C6: the code's column detection is the spec algorithm — sort by
x-center, greedily join the current column iff the center differs from
the running mean (an arithmetic mean of the members) by strictly less
than 50, else open a new column — and `_order_page_regions` concatenates
the columns sorted left-to-right by final mean center. -/
theorem c6_column_clustering (regions : List Region) : c6Conclusion regions := by
  refine ⟨detectColumns_eq_spec 50 regions, detectColumns_mean regions, rfl, ?_⟩
  exact List.sorted_insertionSort colLe _

/-! ## C1: reading-order assignment

Infrastructure: the output of `determine_reading_order` enumerates
`flatRegs`, which is a permutation of the input; its page numbers are
nondecreasing; and within one page each detected column appears as a
contiguous key-sorted block. -/

/-- Pointwise-permuting the pieces permutes the concatenation. -/
theorem flatten_map_perm {α β : Type} (l : List α) (f g : α → List β)
    (h : ∀ a ∈ l, (f a).Perm (g a)) :
    ((l.map f).flatten).Perm ((l.map g).flatten) := by
  induction l with
  | nil => rfl
  | cons a l ih =>
    simp only [List.map_cons, List.flatten_cons]
    exact (h a (List.mem_cons_self _ _)).append
      (ih (fun b hb => h b (List.mem_cons_of_mem _ hb)))

/-- Function `flatMap` respects pointwise equality on the list. -/
theorem flatMap_congr {α β : Type} (l : List α) (f g : α → List β)
    (h : ∀ a ∈ l, f a = g a) : l.flatMap f = l.flatMap g := by
  induction l with
  | nil => rfl
  | cons a l ih =>
    simp only [List.flatMap_cons]
    rw [h a (List.mem_cons_self _ _), ih (fun b hb => h b (List.mem_cons_of_mem _ hb))]

/-- Function `flatMap` respects pointwise permutation. -/
theorem flatMap_perm_congr {α β : Type} (l : List α) (f g : α → List β)
    (h : ∀ a ∈ l, (f a).Perm (g a)) :
    (l.flatMap f).Perm (l.flatMap g) := by
  rw [List.flatMap_def, List.flatMap_def]
  exact flatten_map_perm l f g h

/-- The regions inside the clustering loop's output are the accumulator's
regions, then the current column's, then the unprocessed ones, in order. -/
theorem clusterCols_flatten (th : ℚ) :
    ∀ (rest : List (ℚ × Region)) (cur : Column) (acc : List Column),
      (((clusterCols th rest cur acc).map (fun c => c.regions)).flatten) =
        ((acc.map (fun c => c.regions)).flatten ++ cur.regions) ++
          rest.map (fun pr => pr.2) := by
  intro rest
  induction rest with
  | nil =>
    intro cur acc
    simp [clusterCols]
  | cons p rest ih =>
    obtain ⟨x, r⟩ := p
    intro cur acc
    rw [clusterCols]
    dsimp only
    split
    · rw [ih]
      simp [List.append_assoc]
    · rw [ih]
      simp [List.append_assoc]

/-- The members of the detected columns are a permutation of the page's
regions. -/
theorem detectColumns_flatten (th : ℚ) (regs : List Region) :
    ((((detectColumns th regs).map (fun c => c.regions)).flatten)).Perm regs := by
  unfold detectColumns
  cases hs : List.insertionSort centerLe (regs.map (fun r => (xCenter r, r))) with
  | nil =>
    have hp := (List.perm_insertionSort centerLe
      (regs.map (fun r => (xCenter r, r)))).length_eq
    rw [hs] at hp
    simp only [List.length_nil, List.length_map] at hp
    have hrnil : regs = [] := List.length_eq_zero.mp hp.symm
    subst hrnil
    rfl
  | cons p rest =>
    obtain ⟨x, r⟩ := p
    rw [clusterCols_flatten]
    show ((([] : List Column).map (fun c => c.regions)).flatten ++ [r] ++
      rest.map (fun pr => pr.2)).Perm regs
    have hp := List.perm_insertionSort centerLe (regs.map (fun r => (xCenter r, r)))
    rw [hs] at hp
    have hmapped := hp.map (fun pr : ℚ × Region => pr.2)
    simp only [List.map_cons, List.map_map] at hmapped
    have hid : regs.map ((fun pr : ℚ × Region => pr.2) ∘ fun r => (xCenter r, r)) = regs := by
      simp [Function.comp_def]
    rw [hid] at hmapped
    exact hmapped

/-- Method `_order_page_regions` permutes the page's regions. -/
theorem orderPageRegions_perm (regs : List Region) :
    (orderPageRegions regs).Perm regs := by
  unfold orderPageRegions
  refine List.Perm.trans
    (flatten_map_perm _ _ (fun col => col.regions)
      (fun c _ => List.perm_insertionSort keyLe c.regions)) ?_
  refine List.Perm.trans
    (((List.perm_insertionSort colLe _).map (fun col => col.regions)).flatten) ?_
  exact detectColumns_flatten 50 regs

/-- The sorted distinct page keys are duplicate-free. -/
theorem pageKeys_nodup (regs : List Region) : (pageKeys regs).Nodup :=
  ((List.perm_insertionSort _ _).nodup_iff).mpr
    (List.nodup_dedup (regs.map (fun r => r.page_num)))

/-- The sorted page keys are nondecreasing. -/
theorem pageKeys_sorted (regs : List Region) :
    (pageKeys regs).Pairwise (· ≤ ·) := by
  unfold pageKeys
  exact List.sorted_insertionSort _ _

/-- Every region's page number is a page key. -/
theorem mem_pageKeys (regs : List Region) (r : Region) (hr : r ∈ regs) :
    r.page_num ∈ pageKeys regs := by
  unfold pageKeys
  rw [(List.perm_insertionSort _ _).mem_iff, List.mem_dedup]
  exact List.mem_map_of_mem _ hr

/-- Partitioning a list by a duplicate-free covering key list and
concatenating the parts permutes the list. -/
theorem flatMap_filter_perm (keys : List ℤ) :
    ∀ (l : List Region), keys.Nodup → (∀ r ∈ l, r.page_num ∈ keys) →
      ((keys.flatMap (fun p => l.filter (fun r => r.page_num = p)))).Perm l := by
  induction keys with
  | nil =>
    intro l _ hcov
    cases l with
    | nil => rfl
    | cons a l => exact absurd (hcov a (List.mem_cons_self _ _)) (by simp)
  | cons p ks ih =>
    intro l hnd hcov
    obtain ⟨hp, hks⟩ := List.nodup_cons.mp hnd
    simp only [List.flatMap_cons]
    have htail : (ks.flatMap (fun q => l.filter (fun r => r.page_num = q))) =
        ks.flatMap (fun q =>
          (l.filter (fun r => !(decide (r.page_num = p)))).filter
            (fun r => r.page_num = q)) := by
      apply flatMap_congr
      intro q hq
      rw [List.filter_filter]
      apply List.filter_congr
      intro r _
      by_cases h1 : r.page_num = q
      · have hqp : q ≠ p := fun he => hp (he ▸ hq)
        simp [h1, hqp]
      · simp [h1]
    rw [htail]
    have hcov' : ∀ r ∈ l.filter (fun r => !(decide (r.page_num = p))),
        r.page_num ∈ ks := by
      intro r hr
      rw [List.mem_filter] at hr
      obtain ⟨hrl, hrp⟩ := hr
      simp only [Bool.not_eq_true', decide_eq_false_iff_not] at hrp
      rcases List.mem_cons.mp (hcov r hrl) with h1 | h1
      · exact absurd h1 hrp
      · exact h1
    exact (List.Perm.append_left _
        (ih (l.filter (fun r => !(decide (r.page_num = p)))) hks hcov')).trans
      (List.filter_append_perm (fun r => decide (r.page_num = p)) l)

/-- The page-ordered concatenation permutes the input regions. -/
theorem flatRegs_perm (regs : List Region) : (flatRegs regs).Perm regs := by
  unfold flatRegs
  exact (flatMap_perm_congr _ _ (fun p => pageRegions regs p)
      (fun p _ => orderPageRegions_perm (pageRegions regs p))).trans
    (flatMap_filter_perm (pageKeys regs) regs (pageKeys_nodup regs)
      (mem_pageKeys regs))

/-- The output length of `determine_reading_order` equals the enumerated
sequence's length. -/
theorem determineReadingOrder_length (regs : List Region) :
    (determineReadingOrder regs).length = (flatRegs regs).length := by
  unfold determineReadingOrder
  rw [List.length_map, List.enum_length]

/-- The `i`-th output of `determine_reading_order` is the `i`-th region of
the page-ordered sequence, annotated with reading order `i`. -/
theorem determineReadingOrder_getElem (regs : List Region) (i : ℕ)
    (hi : i < (determineReadingOrder regs).length)
    (hi2 : i < (flatRegs regs).length) :
    (determineReadingOrder regs).get ⟨i, hi⟩ =
      mkOrdered ((flatRegs regs).get ⟨i, hi2⟩) i := by
  unfold determineReadingOrder
  simp [List.get_eq_getElem, List.getElem_map, List.getElem_enum]

/-- Every region in a page block carries that page number. -/
theorem orderPageRegions_pages (regs : List Region) (p : ℤ)
    (r : Region) (hr : r ∈ orderPageRegions (pageRegions regs p)) :
    r.page_num = p := by
  have hmem := (orderPageRegions_perm (pageRegions regs p)).subset hr
  unfold pageRegions at hmem
  rw [List.mem_filter] at hmem
  exact of_decide_eq_true hmem.2

/-- The page numbers along the page-ordered sequence are nondecreasing. -/
theorem flatRegs_pages_mono (regs : List Region) :
    ((flatRegs regs).map (fun r => r.page_num)).Pairwise (· ≤ ·) := by
  unfold flatRegs
  rw [List.map_flatMap, List.flatMap_def, List.pairwise_flatten]
  constructor
  · intro l' hl'
    obtain ⟨p, _, rfl⟩ := List.mem_map.mp hl'
    rw [List.pairwise_map]
    apply List.pairwise_of_forall_mem_list
    intro a ha b hb
    rw [orderPageRegions_pages regs p a ha, orderPageRegions_pages regs p b hb]
  · rw [List.pairwise_map]
    refine (pageKeys_sorted regs).imp ?_
    intro p q hpq x hx y hy
    obtain ⟨a, ha, rfl⟩ := List.mem_map.mp hx
    obtain ⟨b, hb, rfl⟩ := List.mem_map.mp hy
    rw [orderPageRegions_pages regs p a ha, orderPageRegions_pages regs q b hb]
    exact hpq

/-- A strictly key-smaller region cannot be key-above the other. -/
theorem keyLt_not_keyLe (r s : Region) (h : keyLt r s) : ¬ keyLe s r := by
  intro hle
  unfold keyLt at h
  unfold keyLe at hle
  rcases h with h | ⟨h1, h2⟩ <;> rcases hle with g | ⟨g1, g2⟩
  · omega
  · omega
  · omega
  · exact absurd h2 (not_lt.mpr g2)

/-- In a key-sorted list, a strictly key-smaller element sits at a
strictly smaller position. -/
theorem sorted_pos_lt (l : List Region) (hl : l.Pairwise keyLe) (r s : Region)
    (a b : ℕ) (ha : a < l.length) (hb : b < l.length)
    (hra : l[a] = r) (hrb : l[b] = s) (hk : keyLt r s) : a < b := by
  rcases lt_trichotomy a b with h | h | h
  · exact h
  · exfalso
    subst h
    rw [hra] at hrb
    subst hrb
    unfold keyLt at hk
    rcases hk with h | ⟨_, h⟩
    · exact lt_irrefl _ h
    · exact lt_irrefl _ h
  · exfalso
    have hpw := List.pairwise_iff_getElem.mp hl b a hb ha h
    rw [hra, hrb] at hpw
    exact keyLt_not_keyLe r s hk hpw

/-- Indexing into the middle third of a three-part concatenation. -/
theorem getElem_append_middle (A S F : List Region) (a : ℕ) (ha : a < S.length)
    (hb : A.length + a < (A ++ (S ++ F)).length) :
    (A ++ (S ++ F))[A.length + a] = S[a] := by
  rw [List.getElem_append_right (Nat.le_add_right A.length a)]
  have hidx : A.length + a - A.length = a := by omega
  simp only [hidx]
  exact List.getElem_append_left ha

/-- Members of a detected column are regions of the page. -/
theorem column_regions_subset (regs : List Region) (p : ℤ) (col : Column)
    (hcol : col ∈ detectColumns 50 (pageRegions regs p)) :
    ∀ t ∈ col.regions, t ∈ pageRegions regs p := by
  intro t ht
  have h1 : t ∈ ((detectColumns 50 (pageRegions regs p)).map
      (fun c => c.regions)).flatten := by
    rw [List.mem_flatten]
    exact ⟨col.regions, List.mem_map_of_mem _ hcol, ht⟩
  exact (detectColumns_flatten 50 _).subset h1

/-- Within the page-ordered sequence, two same-column regions of a page
with strictly increasing `(type_priority, y1)` keys appear in that order:
any occurrence (by region id) of the first precedes any occurrence of the
second. -/
theorem flatRegs_column_order (regs : List Region)
    (hids : (regs.map (fun t => t.region_id)).Nodup)
    (p : ℤ) (col : Column) (hcol : col ∈ detectColumns 50 (pageRegions regs p))
    (r s : Region) (hr : r ∈ col.regions) (hs : s ∈ col.regions)
    (hk : keyLt r s) :
    ∀ (i j : ℕ) (hi : i < (flatRegs regs).length) (hj : j < (flatRegs regs).length),
      (flatRegs regs)[i].region_id = r.region_id →
      (flatRegs regs)[j].region_id = s.region_id →
      i < j := by
  have hsubcol := column_regions_subset regs p col hcol
  have hpmem : p ∈ pageKeys regs := by
    have hrpage := hsubcol r hr
    unfold pageRegions at hrpage
    rw [List.mem_filter] at hrpage
    have hpage : r.page_num = p := of_decide_eq_true hrpage.2
    rw [← hpage]
    exact mem_pageKeys regs r hrpage.1
  obtain ⟨K1, K2, hK⟩ := List.append_of_mem hpmem
  have hcolm : col ∈ List.insertionSort colLe (detectColumns 50 (pageRegions regs p)) :=
    ((List.perm_insertionSort colLe _).mem_iff).mpr hcol
  obtain ⟨C1, C2, hC⟩ := List.append_of_mem hcolm
  have hrS : r ∈ List.insertionSort keyLe col.regions :=
    ((List.perm_insertionSort keyLe _).mem_iff).mpr hr
  have hsS : s ∈ List.insertionSort keyLe col.regions :=
    ((List.perm_insertionSort keyLe _).mem_iff).mpr hs
  obtain ⟨a, ha, hSa⟩ := List.mem_iff_getElem.mp hrS
  obtain ⟨b, hb, hSb⟩ := List.mem_iff_getElem.mp hsS
  have hab : a < b := sorted_pos_lt _ (List.sorted_insertionSort keyLe col.regions)
    r s a b ha hb hSa hSb hk
  have hflat : flatRegs regs =
      (K1.flatMap (fun q => orderPageRegions (pageRegions regs q)) ++
        (C1.map (fun c => List.insertionSort keyLe c.regions)).flatten) ++
      (List.insertionSort keyLe col.regions ++
        ((C2.map (fun c => List.insertionSort keyLe c.regions)).flatten ++
          K2.flatMap (fun q => orderPageRegions (pageRegions regs q)))) := by
    unfold flatRegs
    rw [hK, List.flatMap_append, List.flatMap_cons]
    have hB : orderPageRegions (pageRegions regs p) =
        ((C1 ++ col :: C2).map (fun c => List.insertionSort keyLe c.regions)).flatten := by
      unfold orderPageRegions
      rw [← hC]
    rw [hB, List.map_append, List.map_cons, List.flatten_append, List.flatten_cons]
    simp only [List.append_assoc]
  intro i j hi hj hir hjs
  have hnodup : ((flatRegs regs).map (fun t => t.region_id)).Nodup :=
    (((flatRegs_perm regs).map (fun t => t.region_id)).nodup_iff).mpr hids
  have hlenflat : (flatRegs regs).length =
      (K1.flatMap (fun q => orderPageRegions (pageRegions regs q)) ++
        (C1.map (fun c => List.insertionSort keyLe c.regions)).flatten).length +
      ((List.insertionSort keyLe col.regions).length +
        ((C2.map (fun c => List.insertionSort keyLe c.regions)).flatten ++
          K2.flatMap (fun q => orderPageRegions (pageRegions regs q))).length) := by
    rw [hflat]
    simp [List.length_append]
    omega
  set A := K1.flatMap (fun q => orderPageRegions (pageRegions regs q)) ++
    (C1.map (fun c => List.insertionSort keyLe c.regions)).flatten with hA
  have hia : A.length + a < (flatRegs regs).length := by omega
  have hib : A.length + b < (flatRegs regs).length := by omega
  have hgetA : (flatRegs regs)[A.length + a] = r := by
    rw [List.getElem_of_eq hflat]
    rw [getElem_append_middle A _ _ a ha]
    exact hSa
  have hgetB : (flatRegs regs)[A.length + b] = s := by
    rw [List.getElem_of_eq hflat]
    rw [getElem_append_middle A _ _ b hb]
    exact hSb
  have hi2 : i < ((flatRegs regs).map (fun t => t.region_id)).length := by
    rw [List.length_map]
    exact hi
  have hj2 : j < ((flatRegs regs).map (fun t => t.region_id)).length := by
    rw [List.length_map]
    exact hj
  have hia2 : A.length + a < ((flatRegs regs).map (fun t => t.region_id)).length := by
    rw [List.length_map]
    exact hia
  have hib2 : A.length + b < ((flatRegs regs).map (fun t => t.region_id)).length := by
    rw [List.length_map]
    exact hib
  have hieq : i = A.length + a := by
    refine (@List.Nodup.getElem_inj_iff _ _ hnodup i hi2 (A.length + a) hia2).mp ?_
    rw [List.getElem_map, List.getElem_map, hir, hgetA]
  have hjeq : j = A.length + b := by
    refine (@List.Nodup.getElem_inj_iff _ _ hnodup j hj2 (A.length + b) hib2).mp ?_
    rw [List.getElem_map, List.getElem_map, hjs, hgetB]
  omega

/-- C1: `determine_reading_order` emits exactly one `OrderedRegion` per
input region; reading orders are the output positions `0, 1, 2, …`, hence
pairwise distinct and strictly increasing; regions of a lower page come
strictly before (so below in reading order) regions of a higher page; and
two regions of one detected column on a page are ordered by their strict
`(type_priority, y1)` key. Region ids are assumed pairwise distinct (the
data model's identifier). -/
theorem c1_reading_order (regions : List Region)
    (hids : (regions.map (fun r => r.region_id)).Nodup) :
    c1Conclusion regions := by
  unfold c1Conclusion
  have hlen := determineReadingOrder_length regions
  have hperm := flatRegs_perm regions
  refine ⟨?_, ?_, ?_, ?_, ?_⟩
  · rw [hlen, hperm.length_eq]
  · have hmap : (determineReadingOrder regions).map toRegion = flatRegs regions := by
      unfold determineReadingOrder
      rw [List.map_map]
      have hfun : (toRegion ∘ fun pr : ℕ × Region => mkOrdered pr.2 pr.1) =
          Prod.snd := by
        funext pr
        rfl
      rw [hfun, List.enum_map_snd]
    rw [hmap]
    exact hperm
  · intro i hi
    rw [determineReadingOrder_getElem regions i hi (by rw [← hlen]; exact hi)]
    rfl
  · intro i j hi hj hpage
    have hi2 : i < (flatRegs regions).length := by rw [← hlen]; exact hi
    have hj2 : j < (flatRegs regions).length := by rw [← hlen]; exact hj
    rw [determineReadingOrder_getElem regions i hi hi2,
        determineReadingOrder_getElem regions j hj hj2] at hpage ⊢
    show i < j
    by_contra hnotlt
    push_neg at hnotlt
    have hmono := flatRegs_pages_mono regions
    rcases Nat.lt_or_ge j i with hlt | hge
    · have hpw := List.pairwise_iff_getElem.mp hmono j i
        (by rw [List.length_map]; exact hj2) (by rw [List.length_map]; exact hi2) hlt
      rw [List.getElem_map, List.getElem_map] at hpw
      simp only [mkOrdered, List.get_eq_getElem] at hpage
      exact absurd hpage (not_lt.mpr hpw)
    · have hij : i = j := by omega
      subst hij
      simp only [mkOrdered, List.get_eq_getElem] at hpage
      exact lt_irrefl _ hpage
  · intro p col hcol r s hr hs hk i j hi hj hir hjs
    have hi2 : i < (flatRegs regions).length := by rw [← hlen]; exact hi
    have hj2 : j < (flatRegs regions).length := by rw [← hlen]; exact hj
    rw [determineReadingOrder_getElem regions i hi hi2] at hir
    rw [determineReadingOrder_getElem regions j hj hj2] at hjs
    rw [determineReadingOrder_getElem regions i hi hi2,
        determineReadingOrder_getElem regions j hj hj2]
    show i < j
    simp only [mkOrdered, List.get_eq_getElem] at hir hjs
    exact flatRegs_column_order regions hids p col hcol r s hr hs hk i j hi2 hj2 hir hjs

/-- Witness for C1 on two same-page, same-column regions with distinct
ids and strictly increasing keys. -/
theorem c1_reading_order_witness :
    (([exRegionA, exRegionB].map (fun r => r.region_id)).Nodup) ∧
    c1Conclusion [exRegionA, exRegionB] :=
  ⟨by decide, c1_reading_order [exRegionA, exRegionB] (by decide)⟩

/-- Witness for C4 on a concrete sorted pool of three candidates with
requested `top_k = 2`. -/
theorem c4_boundary_lambdas_witness :
    ([exHit "a" 3, exHit "b" 2, exHit "c" 1].Pairwise scoreGe) ∧
    (applyDiversity [exHit "a" 3, exHit "b" 2, exHit "c" 1] (normTopK 2) 0 =
        [exHit "a" 3, exHit "b" 2, exHit "c" 1].take (normTopK 2) ∧
      applyDiversity [exHit "a" 3, exHit "b" 2, exHit "c" 1] (normTopK 2) 1 =
        [exHit "a" 3, exHit "b" 2, exHit "c" 1].take (normTopK 2)) :=
  ⟨by decide, c4_boundary_lambdas [exHit "a" 3, exHit "b" 2, exHit "c" 1] 2 (by decide)⟩

end RPC
